import Mathlib

set_option maxRecDepth 4000

/-!
Shallow embedding of the batch health-check engine of the iptv-m3u-manager
repository (src/services/stream_checker.py, src/routers/subscriptions.py).

The Python code is asynchronous and effectful; here the effects are made
explicit:
  - the outcome of one external ffmpeg invocation (exit code, captured
    stderr, existence/size/bytes of the output file, timeout, unexpected
    exception) is an explicit `ExecOutcome` input;
  - the database is an explicit `List Channel` threaded through writeback;
  - the progress sink receives the list of emitted percentages;
  - `asyncio.gather` without return_exceptions is modelled by `gatherAll`,
    which propagates the first raised exception as `Except.error`;
  - the `asyncio.Semaphore` discipline of `run_batch_check` is modelled by
    a small-step transition system `BatchStep`.

Machine integers: Python ints are unbounded, so `Int`/`Nat` are exact.
The progress percentage `int((i / total) * 100)` is computed by Python in
IEEE-754 binary64 arithmetic, which differs from the exact rational floor
(at total = 50, i = 29 the code computes 57 while the exact floor is 58).
It is embedded exactly: `fl64` is the rounding function of binary64
(round to nearest, ties to even, 53-bit significand, subnormals below
2^-1022, no overflow in the ranges used), expressed over `ℚ`, and the
percent is `int(fl64(fl64(i / total) * 100))`, i.e. two correctly rounded
operations followed by truncation, exactly as CPython evaluates
`int((i / total) * 100)`.
-/

/-- One persisted streaming endpoint row (the `Channel` SQLModel entity).
Only the fields the health-check engine and the reconciliation merger read
or write are modelled.  `check_date` is an abstract timestamp. -/
structure Channel where
  id : Option Int
  name : String
  url : String
  group_title : String
  logo : String
  is_enabled : Bool
  check_status : Option Bool
  check_date : Option Nat
  check_image : Option String
  check_error : Option String
  check_source : Option String
deriving DecidableEq

/-- The dict returned by `StreamChecker.check_stream_visual`:
`{"url": ..., "status": ..., "image"?: ..., "error"?: ...}`.
Absent keys are `none`. -/
structure ProbeResult where
  url : String
  status : Bool
  image : Option String := none
  error : Option String := none
deriving DecidableEq

/-- What the blocking `subprocess.run(cmd, timeout=15)` call did, as seen by
the `try/except` in `check_stream_visual`:
  - `completed rc stderr ex sz bytes`: the process ran; `rc` its exit code,
    `stderr` its decoded diagnostic stream (empty string when `result.stderr`
    was falsy), `ex` whether the output file exists, `sz` its size and
    `bytes` its contents;
  - `timedOut`: `subprocess.TimeoutExpired` was raised (outer 15 s timeout);
  - `failed msg`: any other exception, with `str(e) = msg`. -/
inductive ExecOutcome where
  | completed (returncode : Int) (stderr : String) (fileExists : Bool)
      (fileSize : Nat) (fileBytes : List Nat)
  | timedOut
  | failed (msg : String)
deriving DecidableEq

/-- Python string slicing `s[:n]`. -/
def pySlice (n : Nat) (s : String) : String :=
  String.mk (s.data.take n)

/-- The standard base64 alphabet used by `base64.b64encode`. -/
def base64Table : List Char :=
  "ABCDEFGHIJKLMNOPQRSTUVWXYZabcdefghijklmnopqrstuvwxyz0123456789+/".data

/-- Look up one 6-bit group in the base64 alphabet. -/
def base64Char (n : Nat) : Char :=
  base64Table.getD n 'A'

/-- Encode a byte list in base64, three bytes to four characters, with
`=` padding, as `base64.b64encode` does. -/
def base64Chunks : List Nat → List Char
  | b1 :: b2 :: b3 :: rest =>
      base64Char (b1 / 4) ::
      base64Char (b1 % 4 * 16 + b2 / 16) ::
      base64Char (b2 % 16 * 4 + b3 / 64) ::
      base64Char (b3 % 64) :: base64Chunks rest
  | [b1, b2] =>
      [base64Char (b1 / 4), base64Char (b1 % 4 * 16 + b2 / 16),
       base64Char (b2 % 16 * 4), '=']
  | [b1] =>
      [base64Char (b1 / 4), base64Char (b1 % 4 * 16), '=', '=']
  | [] => []

/-- `base64.b64encode(data).decode('utf-8')`. -/
def base64Encode (bs : List Nat) : String :=
  String.mk (base64Chunks bs)

/-- `StreamChecker.check_stream_visual(url)`, with the behaviour of the
external process supplied as an explicit `ExecOutcome`.  Mirrors the
classification in src/services/stream_checker.py lines 117-145:
  - exit code 0 and the output file exists with size > 0: success, the
    file bytes are base64-embedded as a data URL;
  - otherwise: failure; the error is the decoded stderr (or a fixed
    message when stderr is empty), replaced by a crash hint when the exit
    code is -11 or 139, and truncated to 100 characters;
  - `subprocess.TimeoutExpired`: failure with the fixed message
    "Detection Timeout";
  - any other exception `e`: failure with `str(e)` (not truncated). -/
def check_stream_visual (url : String) (o : ExecOutcome) : ProbeResult :=
  match o with
  | .completed rc stderr ex sz bs =>
      if rc = 0 ∧ ex = true ∧ 0 < sz then
        { url := url, status := true,
          image := some ("data:image/jpeg;base64," ++ base64Encode bs) }
      else
        let errMsg := if stderr = "" then "FFmpeg produced no image." else stderr
        let errMsg :=
          if rc = -11 ∨ rc = 139 then
            "FFmpeg 进程崩溃 (SIGSEGV, RC=" ++ toString rc ++
              ")。LXC 容器建议安装系统官方软件包。"
          else errMsg
        { url := url, status := false, error := some (pySlice 100 errMsg) }
  | .timedOut =>
      { url := url, status := false, error := some "Detection Timeout" }
  | .failed msg =>
      { url := url, status := false, error := some msg }

example : base64Encode [1, 2, 3] = "AQID" := by decide
example : (check_stream_visual "u" (.completed 0 "" true 3 [1, 2, 3])).image
    = some "data:image/jpeg;base64,AQID" := by decide
example : (check_stream_visual "u" (.failed "boom")).error = some "boom" := by decide

/-! ## Progress throttling (`_bounded_check`, stream_checker.py lines 166-173)

Each probe task computes `progress = int((i / total) * 100)` and emits a
progress report exactly when `progress == 0 or progress == 100 or
(progress - last_progress) >= 2`, where `last_progress` is the per-batch
attribute `_last_p_{task_id}`, read with default -1 and written on every
emission.  The whole decision runs before the task's first await, and
asyncio gives each created task its first slice in creation order, so the
decisions happen sequentially for i = 0, 1, ..., total-1. -/

/-- Round to nearest integer, ties to even: the rounding of one IEEE-754
operation applied to the exact result scaled into integer position. -/
def rne (q : ℚ) : ℤ :=
  if q - ⌊q⌋ < 1/2 then ⌊q⌋
  else if (1:ℚ)/2 < q - ⌊q⌋ then ⌊q⌋ + 1
  else if 2 ∣ ⌊q⌋ then ⌊q⌋ else ⌊q⌋ + 1

/-- The binade exponent of a positive rational: the unique e with
2^e ≤ q < 2^(e+1), computed from the bit lengths of numerator and
denominator. -/
def floorLog2 (q : ℚ) : ℤ :=
  if (2:ℚ) ^ ((q.num.natAbs.log2 : ℤ) - (q.den.log2 : ℤ)) ≤ q
  then (q.num.natAbs.log2 : ℤ) - (q.den.log2 : ℤ)
  else (q.num.natAbs.log2 : ℤ) - (q.den.log2 : ℤ) - 1

/-- The IEEE-754 binary64 rounding function (round to nearest, ties to
even) as an exact map on rationals: a positive value is scaled into the
53-bit significand range of its binade (clamped at the subnormal
threshold 2^-1022), rounded to an integer significand, and scaled back.
Negative inputs never occur in the percent computation and are mapped
to 0; overflow cannot occur in the ranges used (all values < 2^7). -/
def fl64 (q : ℚ) : ℚ :=
  if q ≤ 0 then 0
  else
    (rne (q * (2:ℚ) ^ (52 - max (floorLog2 q) (-1022))) : ℚ)
      * (2:ℚ) ^ (max (floorLog2 q) (-1022) - 52)

/-- `int((i / total) * 100)` with CPython float semantics: `i / total` is
the correctly rounded binary64 quotient, `* 100` a correctly rounded
binary64 product (100 is exactly representable), and `int` truncates
(= floor, as the value is nonnegative).  Python would raise
ZeroDivisionError at total = 0, but that case is unreachable behind the
empty-batch early return; the model returns 0 there. -/
def progressOf (total i : Nat) : Nat :=
  (⌊fl64 (fl64 ((i : ℚ) / (total : ℚ)) * 100)⌋).toNat

/-- The emission test of stream_checker.py line 169:
`progress == 0 or progress == 100 or (progress - last_progress) >= 2`. -/
def emitCond (p : Nat) (last : Int) : Bool :=
  p == 0 || p == 100 || decide (2 ≤ (p : Int) - last)

/-- Per-batch progress state: the `_last_p_{task_id}` attribute (default -1)
and the list of percentages emitted so far. -/
structure ProgState where
  last : Int
  reports : List Nat
deriving DecidableEq

/-- One probe task's progress step (index `i`): emit and update
`last_progress` when `emitCond` holds, otherwise change nothing. -/
def progStep (total : Nat) (st : ProgState) (i : Nat) : ProgState :=
  let p := progressOf total i
  if emitCond p st.last then ⟨(p : Int), st.reports ++ [p]⟩ else st

/-- The progress state after the first `k` probe tasks (in creation order)
have run their emission decision. -/
def progRun (total : Nat) : Nat → ProgState
  | 0 => ⟨-1, []⟩
  | k + 1 => progStep total (progRun total k) k

/-- All progress percentages one batch of `total` channels emits to the
task tracker, in emission order. -/
def batchProgressReports (total : Nat) : List Nat :=
  (progRun total total).reports

/-- The last percentage emitted so far, as observed from the report list
(-1 when nothing has been emitted yet). -/
def lastEmitted (reports : List Nat) : Int :=
  match reports.getLast? with
  | none => -1
  | some v => (v : Int)

example : batchProgressReports 0 = [] := by decide

/-! ## Batch runner and writeback (`run_batch_check`, stream_checker.py 147-205)

`run_batch_check` returns early on an empty channel list, creates one
`_bounded_check` task per channel, collects them with
`asyncio.gather(*tasks)` (without `return_exceptions=True`), and then
writes every collected result back to the database in one session that is
committed once.  `_bounded_check` tags the probe dict with the channel id:
`{**res, "ch_id": ch.id}`. -/

/-- The probe dict of `_bounded_check` after tagging: `{**res, "ch_id": ch.id}`. -/
structure BatchResult where
  url : String
  status : Bool
  image : Option String := none
  error : Option String := none
  ch_id : Option Int := none
deriving DecidableEq

/-- `{**res, "ch_id": ch.id}` (stream_checker.py line 182). -/
def tagResult (r : ProbeResult) (chId : Option Int) : BatchResult :=
  { url := r.url, status := r.status, image := r.image, error := r.error,
    ch_id := chId }

/-- What one `_bounded_check` coroutine does after its progress step:
either it returns a tagged probe dict, or an unexpected exception escapes
it (e.g. from the `await update_task_status` call or from `ch.name[:20]`
on a channel whose name is None; `check_stream_visual` itself catches all
its own exceptions). -/
inductive TaskOutcome where
  | ok (r : ProbeResult)
  | raised (e : String)
deriving DecidableEq

/-- One `_bounded_check(i, ch)` body (after the progress step, which is
handled by `progRun`): tag the probe result with the channel id, or let
the exception escape. -/
def boundedCheckResult (ch : Channel) (o : TaskOutcome) : Except String BatchResult :=
  match o with
  | .ok r => .ok (tagResult r ch.id)
  | .raised e => .error e

/-- `asyncio.gather(*tasks)` without `return_exceptions=True`: when every
task returns normally the list of results is produced; when any task
raises, the exception propagates to the awaiter of the gather and the
collected results are discarded. -/
def gatherAll : List (Except String BatchResult) → Except String (List BatchResult)
  | [] => .ok []
  | .error e :: _ => .error e
  | .ok r :: rest => (gatherAll rest).map (r :: ·)

/-- Python truthiness of `res.get('ch_id')` (stream_checker.py line 191):
None and 0 are falsy. -/
def truthyId : Option Int → Bool
  | none => false
  | some n => n != 0

/-- The mutation applied to a looked-up channel row
(stream_checker.py lines 194-199). -/
def applyResult (source : String) (now : Nat) (r : BatchResult) (ch : Channel) : Channel :=
  { ch with
    check_status := some r.status
    check_date := some now
    check_image := r.image
    check_error := if r.status then none else r.error
    check_source := some source
    is_enabled := r.status }

/-- Writeback of one tagged result (one iteration of the `for res in
results` loop, stream_checker.py lines 190-200): skip when `ch_id` is
falsy; otherwise look the channel up by primary key and, when it still
exists, apply the mutation.  The lookup by primary key is modelled as
updating the rows whose id equals `ch_id` (primary keys are unique, so at
most one row matches); when no row matches the database is unchanged. -/
def writebackOne (source : String) (now : Nat) (db : List Channel)
    (r : BatchResult) : List Channel :=
  match r.ch_id with
  | none => db
  | some cid =>
      if cid = 0 then db
      else db.map (fun c => if c.id = some cid then applyResult source now r c else c)

/-- The whole writeback loop followed by the single `commit()`. -/
def writeback (source : String) (now : Nat) (db : List Channel)
    (results : List BatchResult) : List Channel :=
  results.foldl (writebackOne source now) db

/-- `StreamChecker.run_batch_check(session, channels, ...)`.  The behaviour
of each `_bounded_check` coroutine is an explicit `TaskOutcome` (paired
with its channel by position).  Returns the emitted progress percentages
and either the database after writeback, or the exception that
`asyncio.gather` propagated (in which case the writeback block never
runs).  In the exception case the real report list depends on the event
loop's scheduling; no claim below relies on it. -/
def run_batch_check (db : List Channel) (channels : List Channel)
    (outcomes : List TaskOutcome) (source : String) (now : Nat) :
    List Nat × Except String (List Channel) :=
  if channels.isEmpty then ([], .ok db)
  else
    let reports := batchProgressReports channels.length
    match gatherAll ((channels.zip outcomes).map (fun p => boundedCheckResult p.1 p.2)) with
    | .error e => (reports, .error e)
    | .ok results => (reports, .ok (writeback source now db results))

/-! ## Reconciliation merge (`process_subscription_refresh`, subscriptions.py 94-137)

The refresh builds `channel_states`, a dict from old channel URL to the
four preserved fields (a later old channel with the same URL overwrites an
earlier one), deletes the old rows, and creates one new `Channel` per
fetched item: all fetched fields are passed through `Channel(**item, ...)`
while `is_enabled` / `check_status` / `check_date` / `check_image` come
from the state dict, with defaults `True` / None / None / None when the
fetched URL has no entry. -/

/-- The value stored in `channel_states` for one old channel URL. -/
structure ChannelState where
  is_enabled : Bool
  check_status : Option Bool
  check_date : Option Nat
  check_image : Option String
deriving DecidableEq

/-- One parsed item from `IPTVFetcher.fetch_subscription` (a dict; the
parser is external to the core, so only the fields the merge contract
speaks about are modelled).  `item.get("url")` is `none` when the key is
absent, in which case no state entry can match it. -/
structure FetchedItem where
  url : Option String
  name : String
  group_title : String
  logo : String
deriving DecidableEq

/-- `channel_states.get(url)`: dict insertion iterates the old channels in
order and later entries overwrite earlier ones, so the lookup finds the
last old channel with the given URL. -/
def channelStates (olds : List Channel) (url : Option String) : Option ChannelState :=
  match url with
  | none => none
  | some u =>
      (olds.reverse.find? (fun c => c.url = u)).map
        (fun c => ⟨c.is_enabled, c.check_status, c.check_date, c.check_image⟩)

/-- The `Channel(**item, subscription_id=..., is_enabled=..., check_status=...,
check_date=..., check_image=...)` constructor call for one fetched item
(subscriptions.py lines 119-133): every fetched field comes from the item,
the four preserved fields come from the state entry when the URL matched,
and `id` and the remaining check fields take the model defaults (unset). -/
def mergedRow (olds : List Channel) (item : FetchedItem) : Channel :=
  let st := channelStates olds item.url
  { id := none
    name := item.name
    url := item.url.getD ""
    group_title := item.group_title
    logo := item.logo
    is_enabled := (st.map (·.is_enabled)).getD true
    check_status := (st.map (·.check_status)).getD none
    check_date := (st.map (·.check_date)).getD none
    check_image := (st.map (·.check_image)).getD none
    check_error := none
    check_source := none }

/-- The channel rows `process_subscription_refresh` persists: the old rows
are deleted and one merged row is created per fetched item, in fetch
order. -/
def process_subscription_refresh (olds : List Channel) (fetched : List FetchedItem) :
    List Channel :=
  fetched.map (mergedRow olds)

/-! ## The concurrency permit (`asyncio.Semaphore(concurrency)`)

`run_batch_check` creates `sem = asyncio.Semaphore(concurrency)` and each
`_bounded_check` enters `async with sem:` before calling
`check_stream_visual` and leaves it when the probe finishes, success or
failure.  The per-batch interleaving is modelled as a transition system:
each task is `pending` (created, before its progress step has finished),
`waiting` (blocked on the semaphore), `running` (inside `async with sem`,
i.e. probing) or `done`; the state also tracks the semaphore's free
permit count. -/

/-- The scheduling phase of one `_bounded_check` task. -/
inductive Phase where
  | pending
  | waiting
  | running
  | done
deriving DecidableEq

/-- One instant of a batch: the semaphore's free permits and each task's
phase. -/
structure BatchState where
  permits : Nat
  tasks : List Phase
deriving DecidableEq

/-- The number of probe invocations executing at this instant. -/
def countRunning (s : BatchState) : Nat :=
  s.tasks.countP (fun p => p = Phase.running)

/-- The batch's initial state: the semaphore holds `k` free permits and
every task is created but not yet at the semaphore. -/
def initState (k n : Nat) : BatchState :=
  ⟨k, List.replicate n Phase.pending⟩

/-- One scheduling step of the batch:
  - `start`: a created task runs up to `async with sem` (its progress step
    and prints need no permit);
  - `acquire`: a task blocked on the semaphore obtains a free permit
    (requires one to be free) and enters the probe invocation;
  - `finish`: a probing task's `check_stream_visual` returns (success or
    failure alike) and leaving the `async with` block releases the
    permit. -/
inductive BatchStep : BatchState → BatchState → Prop where
  | start (s : BatchState) (i : Nat) (h : i < s.tasks.length)
      (hp : s.tasks.get ⟨i, h⟩ = Phase.pending) :
      BatchStep s ⟨s.permits, s.tasks.set i Phase.waiting⟩
  | acquire (s : BatchState) (i : Nat) (h : i < s.tasks.length)
      (hp : s.tasks.get ⟨i, h⟩ = Phase.waiting) (hsem : 0 < s.permits) :
      BatchStep s ⟨s.permits - 1, s.tasks.set i Phase.running⟩
  | finish (s : BatchState) (i : Nat) (h : i < s.tasks.length)
      (hp : s.tasks.get ⟨i, h⟩ = Phase.running) :
      BatchStep s ⟨s.permits + 1, s.tasks.set i Phase.done⟩

/-- A batch instant is reachable when some interleaving of task steps
leads to it from the initial state. -/
def Reachable (k n : Nat) (s : BatchState) : Prop :=
  Relation.ReflTransGen BatchStep (initState k n) s

/-! ## Auxiliary definitions used by the claim statements -/

/-- The bound the progress variable `last_progress` satisfies after `k`
steps: -1 before the first step, afterwards the percent of the step just
processed (percentages are non-decreasing, so this dominates every
earlier percent). -/
def prevBound (total : Nat) : Nat → Int
  | 0 => -1
  | k + 1 => (progressOf total k : Int)

/-- How many of the first `k` probe indices compute percent 0 (each of
them re-emits a progress report). -/
def zeroCount (total k : Nat) : Nat :=
  (List.range k).countP (fun i => progressOf total i == 0)

/-- The boundedness property claim C8 asserts of the probe executor:
some single bound covers the error message of every failure result. -/
def failureMessagesBounded : Prop :=
  ∃ B : Nat, ∀ url : String, ∀ o : ExecOutcome,
    (check_stream_visual url o).status = false →
    ∀ e : String, (check_stream_visual url o).error = some e → e.length ≤ B

/-- A sample channel row used by concrete instantiations. -/
def sampleChannel (i : Int) (u : String) : Channel :=
  { id := some i, name := "CCTV", url := u, group_title := "News", logo := "logo.png",
    is_enabled := true, check_status := none, check_date := none,
    check_image := none, check_error := none, check_source := none }

/-- The prior channel of the reconciliation example in the spec:
url "a", disabled, last check successful. -/
def oldRowA : Channel :=
  { id := some 1, name := "old", url := "a", group_title := "g", logo := "l",
    is_enabled := false, check_status := some true, check_date := some 4,
    check_image := some "img", check_error := none, check_source := none }

/-- A freshly fetched item whose URL matches `oldRowA`. -/
def fetchedX : FetchedItem := ⟨some "a", "X", "g2", "l2"⟩

/-- A freshly fetched item whose URL matches no prior channel. -/
def fetchedY : FetchedItem := ⟨some "b", "Y", "g2", "l2"⟩

/-! ## Helper lemmas -/

/-! ### IEEE-754 binary64 rounding lemmas

The percent computation is float arithmetic; these lemmas characterize
`rne`, `floorLog2` and `fl64` (monotonicity, binade bounds, fixed points
on representable dyadics, and the concrete roundings the percent claims
need). -/

theorem le_rne (q : ℚ) : q - 1/2 ≤ (rne q : ℚ) := by
  unfold rne
  split_ifs with h1 h2 h3 <;> push_cast <;>
    [linarith; linarith [Int.lt_floor_add_one q]; linarith; linarith]

theorem rne_le (q : ℚ) : (rne q : ℚ) ≤ q + 1/2 := by
  unfold rne
  split_ifs with h1 h2 h3 <;> push_cast <;>
    [linarith [Int.floor_le q]; linarith; linarith; linarith]

theorem floor_le_rne (q : ℚ) : ⌊q⌋ ≤ rne q := by
  unfold rne
  split_ifs <;> omega

theorem rne_le_floor_add_one (q : ℚ) : rne q ≤ ⌊q⌋ + 1 := by
  unfold rne
  split_ifs <;> omega

theorem rne_mono {a b : ℚ} (hab : a ≤ b) : rne a ≤ rne b := by
  have hf : ⌊a⌋ ≤ ⌊b⌋ := Int.floor_mono hab
  rcases eq_or_lt_of_le hf with heq | hlt
  · unfold rne
    rw [← heq]
    have hfr : a - ⌊a⌋ ≤ b - ⌊a⌋ := by linarith
    split_ifs <;> first | omega | (exfalso; linarith)
  · have h1 := rne_le_floor_add_one a
    have h2 := floor_le_rne b
    omega

theorem rne_intCast (n : ℤ) : rne (n : ℚ) = n := by
  unfold rne
  rw [Int.floor_intCast]
  norm_num

theorem two_zpow_pos (e : ℤ) : (0:ℚ) < 2 ^ e := zpow_pos (by norm_num) e

theorem two_zpow_le_two_zpow {e f : ℤ} (h : e ≤ f) : (2:ℚ) ^ e ≤ 2 ^ f := by
  exact zpow_le_zpow_right₀ (by norm_num) h

theorem two_zpow_lt_iff {e f : ℤ} : (2:ℚ) ^ e < 2 ^ f ↔ e < f := by
  exact zpow_lt_zpow_iff_right₀ (by norm_num)

theorem two_zpow_mul (e f : ℤ) : (2:ℚ) ^ e * 2 ^ f = 2 ^ (e + f) := by
  rw [← zpow_add₀ (by norm_num : (2:ℚ) ≠ 0)]

theorem two_pow_cast (n : ℕ) : ((2 ^ n : ℕ) : ℚ) = (2:ℚ) ^ (n : ℤ) := by
  push_cast
  exact (zpow_natCast 2 n).symm

theorem floorLog2_spec (q : ℚ) (hq : 0 < q) :
    (2:ℚ) ^ floorLog2 q ≤ q ∧ q < (2:ℚ) ^ (floorLog2 q + 1) := by
  have hnum : 0 < q.num := Rat.num_pos.mpr hq
  have hden : (0:ℚ) < (q.den : ℚ) := by exact_mod_cast q.den_pos
  have hnn : q.num.natAbs ≠ 0 := by omega
  have hdn : q.den ≠ 0 := q.den_nz
  set La := q.num.natAbs.log2 with hLa
  set Lb := q.den.log2 with hLb
  have ha1 : ((2 ^ La : ℕ) : ℚ) ≤ (q.num.natAbs : ℚ) := by
    exact_mod_cast Nat.log2_self_le hnn
  have ha2 : (q.num.natAbs : ℚ) < ((2 ^ (La + 1) : ℕ) : ℚ) := by
    exact_mod_cast Nat.lt_log2_self
  have hb1 : ((2 ^ Lb : ℕ) : ℚ) ≤ (q.den : ℚ) := by
    exact_mod_cast Nat.log2_self_le hdn
  have hb2 : (q.den : ℚ) < ((2 ^ (Lb + 1) : ℕ) : ℚ) := by
    exact_mod_cast Nat.lt_log2_self
  rw [two_pow_cast] at ha1 hb1 ha2 hb2
  have hqe : q = (q.num.natAbs : ℚ) / (q.den : ℚ) := by
    rw [show ((q.num.natAbs : ℚ)) = (q.num : ℚ) from
      calc (q.num.natAbs : ℚ) = ((q.num.natAbs : ℤ) : ℚ) := (Int.cast_natCast _).symm
        _ = (q.num : ℚ) := by rw [Int.natAbs_of_nonneg (le_of_lt hnum)]]
    exact (Rat.num_div_den q).symm
  have hA : q < (2:ℚ) ^ ((La : ℤ) - Lb + 1) := by
    rw [hqe, div_lt_iff hden]
    calc (q.num.natAbs : ℚ) < (2:ℚ) ^ (((La + 1 : ℕ)) : ℤ) := ha2
      _ = (2:ℚ) ^ ((La:ℤ) - Lb + 1) * 2 ^ (Lb : ℤ) := by
          rw [two_zpow_mul]
          congr 1
          push_cast
          ring
      _ ≤ (2:ℚ) ^ ((La:ℤ) - Lb + 1) * (q.den : ℚ) :=
          mul_le_mul_of_nonneg_left hb1 (le_of_lt (two_zpow_pos _))
  have hB : (2:ℚ) ^ ((La : ℤ) - Lb - 1) ≤ q := by
    rw [hqe, le_div_iff hden]
    calc (2:ℚ) ^ ((La:ℤ) - Lb - 1) * (q.den : ℚ)
        ≤ (2:ℚ) ^ ((La:ℤ) - Lb - 1) * 2 ^ (((Lb + 1 : ℕ)) : ℤ) :=
          mul_le_mul_of_nonneg_left (le_of_lt hb2) (le_of_lt (two_zpow_pos _))
      _ = (2:ℚ) ^ ((La : ℕ) : ℤ) := by
          rw [two_zpow_mul]
          congr 1
          push_cast
          ring
      _ ≤ (q.num.natAbs : ℚ) := ha1
  unfold floorLog2
  split_ifs with h
  · exact ⟨h, hA⟩
  · refine ⟨?_, ?_⟩
    · have : ((La:ℤ) - Lb - 1) = (La:ℤ) - (Lb:ℤ) - 1 := by ring
      exact hB
    · rw [show (La:ℤ) - (Lb:ℤ) - 1 + 1 = (La:ℤ) - Lb from by ring]
      exact lt_of_not_ge h

theorem exp_unique {q : ℚ} {e f : ℤ} (he1 : (2:ℚ) ^ e ≤ q) (he2 : q < 2 ^ (e + 1))
    (hf1 : (2:ℚ) ^ f ≤ q) (hf2 : q < 2 ^ (f + 1)) : e = f := by
  rcases lt_trichotomy e f with h | h | h
  · exfalso
    have : (2:ℚ) ^ (e + 1) ≤ 2 ^ f := two_zpow_le_two_zpow (by omega)
    linarith
  · exact h
  · exfalso
    have : (2:ℚ) ^ (f + 1) ≤ 2 ^ e := two_zpow_le_two_zpow (by omega)
    linarith

theorem fl64_eq (q : ℚ) (e : ℤ) (hq : 0 < q) (h1 : (2:ℚ) ^ e ≤ q)
    (h2 : q < 2 ^ (e + 1)) (he : -1022 ≤ e) :
    fl64 q = (rne (q * (2:ℚ) ^ (52 - e)) : ℚ) * (2:ℚ) ^ (e - 52) := by
  have hs := floorLog2_spec q hq
  have hfe : floorLog2 q = e := exp_unique hs.1 hs.2 h1 h2
  unfold fl64
  rw [if_neg (not_le.mpr hq), hfe, max_eq_left he]

theorem fl64_nonpos (q : ℚ) (h : q ≤ 0) : fl64 q = 0 := by
  unfold fl64
  exact if_pos h

theorem rne_nonneg_of_pos {q : ℚ} (h : 0 < q) : 0 ≤ rne q := by
  have h1 := le_rne q
  by_contra hneg
  push_neg at hneg
  have h3 : rne q ≤ -1 := by omega
  have h2 : (rne q : ℚ) ≤ -1 := by exact_mod_cast h3
  linarith

theorem fl64_nonneg (q : ℚ) : 0 ≤ fl64 q := by
  unfold fl64
  split_ifs with h
  · exact le_refl 0
  · push_neg at h
    have hn : 0 < q * (2:ℚ) ^ (52 - max (floorLog2 q) (-1022)) :=
      mul_pos h (two_zpow_pos _)
    have h1 : (0:ℚ) ≤ (rne (q * (2:ℚ) ^ (52 - max (floorLog2 q) (-1022))) : ℚ) := by
      exact_mod_cast rne_nonneg_of_pos hn
    exact mul_nonneg h1 (le_of_lt (two_zpow_pos _))

theorem floorLog2_mono {a b : ℚ} (ha : 0 < a) (hab : a ≤ b) :
    floorLog2 a ≤ floorLog2 b := by
  have hb : 0 < b := lt_of_lt_of_le ha hab
  have hsa := floorLog2_spec a ha
  have hsb := floorLog2_spec b hb
  by_contra hcon
  push_neg at hcon
  have : (2:ℚ) ^ (floorLog2 b + 1) ≤ 2 ^ (floorLog2 a) :=
    two_zpow_le_two_zpow (by omega)
  linarith

theorem fl64_mono {a b : ℚ} (hab : a ≤ b) : fl64 a ≤ fl64 b := by
  rcases le_or_lt a 0 with ha | ha
  · rw [fl64_nonpos a ha]
    exact fl64_nonneg b
  · have hb : 0 < b := lt_of_lt_of_le ha hab
    have hsa := floorLog2_spec a ha
    have hsb := floorLog2_spec b hb
    have heab : max (floorLog2 a) (-1022) ≤ max (floorLog2 b) (-1022) :=
      max_le_max (floorLog2_mono ha hab) (le_refl _)
    have hfla : fl64 a = (rne (a * (2:ℚ) ^ (52 - max (floorLog2 a) (-1022))) : ℚ)
        * (2:ℚ) ^ (max (floorLog2 a) (-1022) - 52) := by
      unfold fl64
      rw [if_neg (not_le.mpr ha)]
    have hflb : fl64 b = (rne (b * (2:ℚ) ^ (52 - max (floorLog2 b) (-1022))) : ℚ)
        * (2:ℚ) ^ (max (floorLog2 b) (-1022) - 52) := by
      unfold fl64
      rw [if_neg (not_le.mpr hb)]
    rcases eq_or_lt_of_le heab with heq | hlt
    · rw [hfla, hflb, ← heq]
      have hs1 : (0:ℚ) < 2 ^ (52 - max (floorLog2 a) (-1022)) := two_zpow_pos _
      have hs2 : (0:ℚ) ≤ 2 ^ (max (floorLog2 a) (-1022) - 52) :=
        le_of_lt (two_zpow_pos _)
      have hr := rne_mono (mul_le_mul_of_nonneg_right hab (le_of_lt hs1))
      exact mul_le_mul_of_nonneg_right (by exact_mod_cast hr) hs2
    · -- clamped exponent of a strictly below that of b
      have hUa : fl64 a ≤ (2:ℚ) ^ (max (floorLog2 a) (-1022) + 1) := by
        have hup : a * (2:ℚ) ^ (52 - max (floorLog2 a) (-1022))
            < (2:ℚ) ^ (53 : ℤ) := by
          have h1 : a < (2:ℚ) ^ (floorLog2 a + 1) := hsa.2
          have h2 : (2:ℚ) ^ (floorLog2 a + 1) ≤ 2 ^ (max (floorLog2 a) (-1022) + 1) :=
            two_zpow_le_two_zpow (by have := le_max_left (floorLog2 a) (-1022); omega)
          calc a * (2:ℚ) ^ (52 - max (floorLog2 a) (-1022))
              < (2:ℚ) ^ (max (floorLog2 a) (-1022) + 1)
                  * 2 ^ (52 - max (floorLog2 a) (-1022)) := by
                apply mul_lt_mul_of_pos_right _ (two_zpow_pos _)
                linarith
            _ = (2:ℚ) ^ (53 : ℤ) := by rw [two_zpow_mul]; ring_nf
        have hrb : rne (a * (2:ℚ) ^ (52 - max (floorLog2 a) (-1022))) ≤ 2 ^ 53 := by
          have h1 := rne_le (a * (2:ℚ) ^ (52 - max (floorLog2 a) (-1022)))
          by_contra hcon
          push_neg at hcon
          have h2 : ((2:ℤ) ^ 53 + 1 : ℤ) ≤ rne (a * (2:ℚ) ^ (52 - max (floorLog2 a) (-1022))) := by
            omega
          have h3 : (((2:ℤ) ^ 53 + 1 : ℤ) : ℚ) ≤ (rne (a * (2:ℚ) ^ (52 - max (floorLog2 a) (-1022))) : ℚ) := by
            exact_mod_cast h2
          have h4 : (((2:ℤ) ^ 53 + 1 : ℤ) : ℚ) = (2:ℚ) ^ (53:ℤ) + 1 := by
            push_cast
            norm_num
          linarith
        calc fl64 a = (rne (a * (2:ℚ) ^ (52 - max (floorLog2 a) (-1022))) : ℚ)
              * (2:ℚ) ^ (max (floorLog2 a) (-1022) - 52) := hfla
          _ ≤ (2:ℚ) ^ (53:ℤ) * (2:ℚ) ^ (max (floorLog2 a) (-1022) - 52) := by
              apply mul_le_mul_of_nonneg_right _ (le_of_lt (two_zpow_pos _))
              have : ((2 ^ 53 : ℤ) : ℚ) = (2:ℚ) ^ (53:ℤ) := by push_cast; norm_num
              rw [← this]
              exact_mod_cast hrb
          _ = (2:ℚ) ^ (max (floorLog2 a) (-1022) + 1) := by rw [two_zpow_mul]; ring_nf
      have hLb : (2:ℚ) ^ (max (floorLog2 b) (-1022)) ≤ fl64 b := by
        have hebeq : max (floorLog2 b) (-1022) = floorLog2 b := by
          rcases max_cases (floorLog2 b) (-1022) with ⟨h1, h2⟩ | ⟨h1, h2⟩
          · exact h1
          · exfalso
            have h3 := le_max_right (floorLog2 a) (-1022)
            omega
        have hlow : (2:ℚ) ^ (52:ℤ) ≤ b * (2:ℚ) ^ (52 - max (floorLog2 b) (-1022)) := by
          have h1 : (2:ℚ) ^ (floorLog2 b) ≤ b := hsb.1
          calc (2:ℚ) ^ (52:ℤ)
              = (2:ℚ) ^ (floorLog2 b) * 2 ^ (52 - max (floorLog2 b) (-1022)) := by
                rw [two_zpow_mul, hebeq]; ring_nf
            _ ≤ b * (2:ℚ) ^ (52 - max (floorLog2 b) (-1022)) :=
                mul_le_mul_of_nonneg_right h1 (le_of_lt (two_zpow_pos _))
        have hrlow : (2:ℤ) ^ 52 ≤ rne (b * (2:ℚ) ^ (52 - max (floorLog2 b) (-1022))) := by
          have h1 := le_rne (b * (2:ℚ) ^ (52 - max (floorLog2 b) (-1022)))
          by_contra hcon
          push_neg at hcon
          have h2 : rne (b * (2:ℚ) ^ (52 - max (floorLog2 b) (-1022))) ≤ 2 ^ 52 - 1 := by omega
          have h3 : (rne (b * (2:ℚ) ^ (52 - max (floorLog2 b) (-1022))) : ℚ) ≤ ((2 ^ 52 - 1 : ℤ) : ℚ) := by
            exact_mod_cast h2
          have h4 : (((2:ℤ) ^ 52 - 1 : ℤ) : ℚ) = (2:ℚ) ^ (52:ℤ) - 1 := by
            push_cast
            norm_num
          linarith
        calc (2:ℚ) ^ (max (floorLog2 b) (-1022))
            = (2:ℚ) ^ (52:ℤ) * (2:ℚ) ^ (max (floorLog2 b) (-1022) - 52) := by
              rw [two_zpow_mul]; ring_nf
          _ ≤ (rne (b * (2:ℚ) ^ (52 - max (floorLog2 b) (-1022))) : ℚ)
              * (2:ℚ) ^ (max (floorLog2 b) (-1022) - 52) := by
              apply mul_le_mul_of_nonneg_right _ (le_of_lt (two_zpow_pos _))
              have : ((2 ^ 52 : ℤ) : ℚ) = (2:ℚ) ^ (52:ℤ) := by push_cast; norm_num
              rw [← this]
              exact_mod_cast hrlow
          _ = fl64 b := hflb.symm
      have hmid : (2:ℚ) ^ (max (floorLog2 a) (-1022) + 1)
          ≤ 2 ^ (max (floorLog2 b) (-1022)) := two_zpow_le_two_zpow (by omega)
      linarith

theorem fl64_dyadic (m e : ℤ) (hm1 : 2 ^ 52 ≤ m) (hm2 : m < 2 ^ 53)
    (he : -1022 ≤ e) :
    fl64 ((m : ℚ) * (2:ℚ) ^ (e - 52)) = (m : ℚ) * (2:ℚ) ^ (e - 52) := by
  have hmq1 : ((2:ℚ) ^ (52:ℤ)) ≤ (m : ℚ) := by
    have : (((2:ℤ) ^ 52 : ℤ) : ℚ) = (2:ℚ) ^ (52:ℤ) := by push_cast; norm_num
    rw [← this]
    exact_mod_cast hm1
  have hmq2 : (m : ℚ) < (2:ℚ) ^ (53:ℤ) := by
    have : (((2:ℤ) ^ 53 : ℤ) : ℚ) = (2:ℚ) ^ (53:ℤ) := by push_cast; norm_num
    rw [← this]
    exact_mod_cast hm2
  have hmpos : (0:ℚ) < (m : ℚ) := lt_of_lt_of_le (two_zpow_pos _) hmq1
  have hq : 0 < (m : ℚ) * (2:ℚ) ^ (e - 52) := mul_pos hmpos (two_zpow_pos _)
  have h1 : (2:ℚ) ^ e ≤ (m : ℚ) * (2:ℚ) ^ (e - 52) := by
    calc (2:ℚ) ^ e = (2:ℚ) ^ (52:ℤ) * (2:ℚ) ^ (e - 52) := by rw [two_zpow_mul]; ring_nf
      _ ≤ (m : ℚ) * (2:ℚ) ^ (e - 52) :=
          mul_le_mul_of_nonneg_right hmq1 (le_of_lt (two_zpow_pos _))
  have h2 : (m : ℚ) * (2:ℚ) ^ (e - 52) < (2:ℚ) ^ (e + 1) := by
    calc (m : ℚ) * (2:ℚ) ^ (e - 52) < (2:ℚ) ^ (53:ℤ) * (2:ℚ) ^ (e - 52) :=
          mul_lt_mul_of_pos_right hmq2 (two_zpow_pos _)
      _ = (2:ℚ) ^ (e + 1) := by rw [two_zpow_mul]; ring_nf
  rw [fl64_eq _ e hq h1 h2 he]
  have hcancel : (m : ℚ) * (2:ℚ) ^ (e - 52) * (2:ℚ) ^ (52 - e) = (m : ℚ) := by
    rw [mul_assoc, two_zpow_mul]
    norm_num
  rw [hcancel, rne_intCast]

theorem fl64_one_sub_two32 : fl64 (1 - (1:ℚ)/2^32) = 1 - (1:ℚ)/2^32 := by
  have h := fl64_dyadic (2^53 - 2^21) (-1) (by norm_num) (by norm_num) (by norm_num)
  rw [show (((2:ℤ)^53 - 2^21 : ℤ) : ℚ) * (2:ℚ) ^ (-1 - 52 : ℤ) = 1 - (1:ℚ)/2^32 from by
    rw [show (-1 - 52 : ℤ) = -(53:ℕ) from by norm_num, zpow_neg, zpow_natCast]
    push_cast
    norm_num] at h
  exact h

theorem two_zpow_neg_nat (n : ℕ) : (2:ℚ) ^ (-(n:ℤ)) = 1 / 2 ^ n := by
  rw [zpow_neg, zpow_natCast, one_div]

theorem rne_big : rne ((576460752303423488:ℚ)/100) = 5764607523034235 := by
  have hfl : ⌊(576460752303423488:ℚ)/100⌋ = 5764607523034234 := by
    rw [Int.floor_eq_iff]
    constructor
    · norm_num
    · norm_num
  unfold rne
  rw [hfl]
  norm_num

theorem fl64_hundredth :
    fl64 ((1:ℚ)/100) = (5764607523034235:ℚ) * (2:ℚ) ^ (-59 : ℤ) := by
  have h1 : (2:ℚ) ^ (-7:ℤ) ≤ 1/100 := by
    rw [show (-7:ℤ) = -(7:ℕ) from by norm_num, two_zpow_neg_nat]
    norm_num
  have h2 : (1:ℚ)/100 < (2:ℚ) ^ (-7 + 1 : ℤ) := by
    rw [show (-7 + 1:ℤ) = -(6:ℕ) from by norm_num, two_zpow_neg_nat]
    norm_num
  rw [fl64_eq ((1:ℚ)/100) (-7) (by norm_num) h1 h2 (by norm_num)]
  rw [show (52:ℤ) - (-7) = ((59:ℕ):ℤ) from by norm_num,
    show (-7:ℤ) - 52 = -(59:ℕ) from by norm_num, zpow_natCast]
  rw [show (1:ℚ)/100 * (2:ℚ) ^ (59:ℕ) = 576460752303423488/100 from by norm_num]
  rw [rne_big]
  rw [show (-((59:ℕ):ℤ)) = (-59 : ℤ) from by norm_num]
  norm_num

theorem rne_mid : rne ((144115188075855875:ℚ)/32) = 4503599627370496 := by
  have hfl : ⌊(144115188075855875:ℚ)/32⌋ = 4503599627370496 := by
    rw [Int.floor_eq_iff]
    constructor
    · norm_num
    · norm_num
  unfold rne
  rw [hfl]
  norm_num

theorem fl64_hundredth_step :
    fl64 ((5764607523034235:ℚ) * (2:ℚ) ^ (-59 : ℤ) * 100) = 1 := by
  have hv : (5764607523034235:ℚ) * (2:ℚ) ^ (-59 : ℤ) * 100
      = 576460752303423500/576460752303423488 := by
    rw [show (-59:ℤ) = -(59:ℕ) from by norm_num, two_zpow_neg_nat]
    norm_num
  rw [hv]
  have h1 : (2:ℚ) ^ (0:ℤ) ≤ 576460752303423500/576460752303423488 := by
    rw [zpow_zero]
    norm_num
  have h2 : (576460752303423500:ℚ)/576460752303423488 < (2:ℚ) ^ (0 + 1 : ℤ) := by
    norm_num
  rw [fl64_eq _ 0 (by norm_num) h1 h2 (by norm_num)]
  rw [show (52:ℤ) - 0 = ((52:ℕ):ℤ) from by norm_num, zpow_natCast]
  rw [show (576460752303423500:ℚ)/576460752303423488 * (2:ℚ) ^ (52:ℕ)
      = 144115188075855875/32 from by norm_num]
  rw [rne_mid]
  rw [show (0:ℤ) - 52 = -(52:ℕ) from by norm_num, two_zpow_neg_nat]
  norm_num

theorem progressOf_mono (total : Nat) {i j : Nat} (h : i ≤ j) :
    progressOf total i ≤ progressOf total j := by
  unfold progressOf
  have hx : ((i:ℚ)) / (total : ℚ) ≤ (j:ℚ) / (total : ℚ) := by
    rcases Nat.eq_zero_or_pos total with h0 | h0
    · subst h0
      norm_num
    · have htq : (0:ℚ) < (total : ℚ) := by exact_mod_cast h0
      rw [div_le_div_iff_of_pos_right htq]
      exact_mod_cast h
  have h1 := fl64_mono hx
  have h2 := fl64_mono (mul_le_mul_of_nonneg_right h1 (by norm_num : (0:ℚ) ≤ 100))
  exact Int.toNat_le_toNat (Int.floor_mono h2)

theorem progressOf_zero_index (total : Nat) : progressOf total 0 = 0 := by
  unfold progressOf
  rw [show ((0:ℕ):ℚ) / (total:ℚ) = 0 from by norm_num]
  rw [fl64_nonpos 0 (le_refl 0)]
  rw [show (0:ℚ) * 100 = 0 from by norm_num]
  rw [fl64_nonpos 0 (le_refl 0)]
  norm_num

theorem progressOf_ne_zero (total i : Nat) (ht : 0 < total) (h : total ≤ i * 100) :
    progressOf total i ≠ 0 := by
  unfold progressOf
  have htq : (0:ℚ) < (total : ℚ) := by exact_mod_cast ht
  have hx : (1:ℚ)/100 ≤ (i:ℚ) / (total : ℚ) := by
    rw [div_le_div_iff (by norm_num) htq]
    rw [one_mul]
    exact_mod_cast h
  have h1 := fl64_mono hx
  have h2 := fl64_mono (mul_le_mul_of_nonneg_right h1 (by norm_num : (0:ℚ) ≤ 100))
  rw [fl64_hundredth, fl64_hundredth_step] at h2
  have h3 : 1 ≤ ⌊fl64 (fl64 ((i:ℚ) / (total : ℚ)) * 100)⌋ :=
    Int.le_floor.mpr (by exact_mod_cast h2)
  omega

theorem fl64_near_hundred :
    fl64 (100 - (1:ℚ)/2^26) = 100 - (1:ℚ)/2^26 := by
  have h := fl64_dyadic 7036874416717824 6 (by norm_num) (by norm_num) (by norm_num)
  rw [show ((7036874416717824 : ℤ) : ℚ) * (2:ℚ) ^ (6 - 52 : ℤ) = 100 - (1:ℚ)/2^26 from by
    rw [show (6 - 52 : ℤ) = -(46:ℕ) from by norm_num, two_zpow_neg_nat]
    push_cast
    norm_num] at h
  exact h

theorem progressOf_lt_100 (total i : Nat) (ht : 0 < total) (htb : total ≤ 2 ^ 32)
    (hi : i < total) : progressOf total i < 100 := by
  unfold progressOf
  have htq : (0:ℚ) < (total : ℚ) := by exact_mod_cast ht
  have hx : (i:ℚ) / (total : ℚ) ≤ 1 - (1:ℚ)/2^32 := by
    rw [div_le_iff htq]
    have h1 : (i:ℚ) ≤ (total : ℚ) - 1 := by
      have : (i:ℚ) + 1 ≤ (total : ℚ) := by exact_mod_cast hi
      linarith
    have h2 : (total : ℚ) ≤ 2^32 := by exact_mod_cast htb
    have h3 : (total : ℚ)/2^32 ≤ 1 := by
      rw [div_le_one (by norm_num)]
      exact h2
    nlinarith
  have h1 := fl64_mono hx
  rw [fl64_one_sub_two32] at h1
  have h2 : fl64 ((i:ℚ) / (total : ℚ)) * 100 ≤ 100 - (1:ℚ)/2^26 := by
    nlinarith
  have h3 := fl64_mono h2
  rw [fl64_near_hundred] at h3
  have h4 : ⌊fl64 (fl64 ((i:ℚ) / (total : ℚ)) * 100)⌋ < 100 := by
    apply Int.floor_lt.mpr
    push_cast
    linarith [show (0:ℚ) < 1/2^26 from by norm_num]
  omega

theorem fl64_r1 :
    fl64 ((5764607521692058:ℚ) * (2:ℚ) ^ (-59 : ℤ)) = (5764607521692058:ℚ) * (2:ℚ) ^ (-59 : ℤ) := by
  have h := fl64_dyadic 5764607521692058 (-7) (by norm_num) (by norm_num) (by norm_num)
  rw [show ((5764607521692058 : ℤ) : ℚ) = (5764607521692058:ℚ) from by push_cast; ring,
    show (-7 - 52 : ℤ) = (-59:ℤ) from by norm_num] at h
  exact h

theorem fl64_r2 :
    fl64 ((9007199252643841:ℚ) * (2:ℚ) ^ (-53 : ℤ)) = (9007199252643841:ℚ) * (2:ℚ) ^ (-53 : ℤ) := by
  have h := fl64_dyadic 9007199252643841 (-1) (by norm_num) (by norm_num) (by norm_num)
  rw [show ((9007199252643841 : ℤ) : ℚ) = (9007199252643841:ℚ) from by push_cast; ring,
    show (-1 - 52 : ℤ) = (-53:ℤ) from by norm_num] at h
  exact h

theorem progressOf_eq_zero (total i : Nat) (ht : 0 < total) (htb : total ≤ 2 ^ 32)
    (h : i * 100 < total) : progressOf total i = 0 := by
  rcases Nat.eq_zero_or_pos i with hi | hi
  · subst hi
    exact progressOf_zero_index total
  · unfold progressOf
    have htq : (0:ℚ) < (total : ℚ) := by exact_mod_cast ht
    have hr1v : (2:ℚ) ^ (-59:ℤ) = 1/2^59 := by
      rw [show (-59:ℤ) = -(59:ℕ) from by norm_num, two_zpow_neg_nat]
    have hr2v : (2:ℚ) ^ (-53:ℤ) = 1/2^53 := by
      rw [show (-53:ℤ) = -(53:ℕ) from by norm_num, two_zpow_neg_nat]
    have hx : (i:ℚ) / (total : ℚ) ≤ (5764607521692058:ℚ) * (2:ℚ) ^ (-59 : ℤ) := by
      rw [hr1v, div_le_iff htq]
      have h1 : (i:ℚ) * 100 ≤ (total : ℚ) - 1 := by
        have : (i:ℚ) * 100 + 1 ≤ (total : ℚ) := by exact_mod_cast h
        linarith
      have h2 : (total : ℚ) ≤ 2^32 := by exact_mod_cast htb
      nlinarith
    have h1 := fl64_mono hx
    rw [fl64_r1] at h1
    have h2 : fl64 ((i:ℚ) / (total : ℚ)) * 100
        ≤ (9007199252643841:ℚ) * (2:ℚ) ^ (-53 : ℤ) := by
      rw [hr2v]
      rw [hr1v] at h1
      nlinarith
    have h3 := fl64_mono h2
    rw [fl64_r2] at h3
    have h4 : ⌊fl64 (fl64 ((i:ℚ) / (total : ℚ)) * 100)⌋ = 0 := by
      rw [Int.floor_eq_zero_iff]
      constructor
      · exact fl64_nonneg _
      · calc fl64 (fl64 ((i:ℚ) / (total : ℚ)) * 100)
            ≤ (9007199252643841:ℚ) * (2:ℚ) ^ (-53 : ℤ) := h3
          _ < 1 := by rw [hr2v]; norm_num
    rw [h4]
    rfl

theorem pySlice_length_le (n : Nat) (s : String) : (pySlice n s).length ≤ n :=
  List.length_take_le n s.data

theorem writebackOne_falsy (source : String) (now : Nat) (db : List Channel)
    (r : BatchResult) (h : r.ch_id = none ∨ r.ch_id = some 0) :
    writebackOne source now db r = db := by
  unfold writebackOne
  rcases h with h | h <;> simp [h]

theorem writebackOne_no_match (source : String) (now : Nat) (db : List Channel)
    (r : BatchResult) (cid : Int) (hid : r.ch_id = some cid)
    (h : ∀ c ∈ db, c.id ≠ some cid) :
    writebackOne source now db r = db := by
  unfold writebackOne
  rw [hid]
  by_cases hc : cid = 0
  · simp [hc]
  · simp only [hc, if_false]
    calc db.map (fun c => if c.id = some cid then applyResult source now r c else c)
        = db.map id := List.map_congr_left (fun c hc => if_neg (h c hc))
      _ = db := List.map_id db

/-! ## Claims -/

/-- C9: on the empty channel sequence `run_batch_check` returns at the
`if not channels: return` guard: no progress report is emitted and the
database is untouched (no writeback happens). -/
theorem empty_batch_noop (db : List Channel) (outcomes : List TaskOutcome)
    (source : String) (now : Nat) :
    run_batch_check db [] outcomes source now = ([], Except.ok db)
      ∧ batchProgressReports 0 = [] :=
  ⟨rfl, rfl⟩

/-- C5: the probe executor always returns a ProbeResult (it is a total
function of the invocation outcome): the result is a success exactly when
the exit code is 0 and the output file exists with size > 0, in which
case the file bytes are returned base64-embedded as image data; an outer
timeout yields the fixed failure message, and any other execution error
yields a failure carrying the exception message. -/
theorem probe_executor_classification (url : String) (rc : Int) (stderr : String)
    (ex : Bool) (sz : Nat) (bs : List Nat) (m : String) :
    ((check_stream_visual url (.completed rc stderr ex sz bs)).status = true
        ↔ rc = 0 ∧ ex = true ∧ 0 < sz)
    ∧ (rc = 0 → ex = true → 0 < sz →
        (check_stream_visual url (.completed rc stderr ex sz bs)).image
          = some ("data:image/jpeg;base64," ++ base64Encode bs))
    ∧ check_stream_visual url .timedOut
        = { url := url, status := false, error := some "Detection Timeout" }
    ∧ check_stream_visual url (.failed m)
        = { url := url, status := false, error := some m } := by
  refine ⟨?_, ?_, rfl, rfl⟩
  · unfold check_stream_visual
    by_cases h : rc = 0 ∧ ex = true ∧ 0 < sz <;> simp [h]
  · intro h1 h2 h3
    unfold check_stream_visual
    simp [h1, h2, h3]

theorem probe_executor_classification_witness :
    (check_stream_visual "u" (.completed 0 "" true 3 [1, 2, 3])).image
      = some "data:image/jpeg;base64,AQID" := by
  rw [(probe_executor_classification "u" 0 "" true 3 [1, 2, 3] "m").2.1 rfl rfl (by decide)]
  rfl

/-- C8 as stated is false: the unexpected-exception path of
`check_stream_visual` returns `str(e)` without truncation, so no single
bound covers every failure message (witnessed by an exception message
one character longer than any proposed bound). -/
theorem failure_message_not_bounded : ¬ failureMessagesBounded := by
  rintro ⟨B, h⟩
  have hm := h "u" (.failed (String.mk (List.replicate (B + 1) 'a'))) rfl
      (String.mk (List.replicate (B + 1) 'a')) rfl
  have hl : (String.mk (List.replicate (B + 1) 'a')).length = B + 1 := by
    simp [String.length]
  omega

/-- C8 amended: failure messages on the completed-without-usable-output
path (including the crash special case) are truncated to 100 characters
and the timeout message is a fixed short string, but the
unexpected-exception path carries the exception message verbatim,
untruncated. -/
theorem failure_message_truncation (url : String) (rc : Int) (stderr : String)
    (ex : Bool) (sz : Nat) (bs : List Nat) (m : String) :
    (∀ e, (check_stream_visual url (.completed rc stderr ex sz bs)).error = some e →
        e.length ≤ 100)
    ∧ (∀ e, (check_stream_visual url .timedOut).error = some e → e.length ≤ 100)
    ∧ (check_stream_visual url (.failed m)).error = some m := by
  refine ⟨?_, ?_, rfl⟩
  · intro e he
    unfold check_stream_visual at he
    by_cases h : rc = 0 ∧ ex = true ∧ 0 < sz
    · simp [h] at he
    · simp only [h, if_false] at he
      have h2 := Option.some_injective _ he
      rw [← h2]
      exact pySlice_length_le 100 _
  · intro e he
    have h2 : "Detection Timeout" = e := Option.some_injective _ he
    rw [← h2]
    decide

theorem failure_message_truncation_witness :
    ("boom" : String).length ≤ 100 :=
  (failure_message_truncation "u" 1 "boom" true 0 [] "m").1 "boom" (by decide)

/-- C10: writeback persists a result only when its channel identifier is
truthy: a result whose `ch_id` is None or 0 is skipped before the storage
lookup (so even an existing channel with identifier 0 is never updated),
and the rest of the batch is written back as if the result were absent. -/
theorem falsy_id_results_skipped (source : String) (now : Nat) (db : List Channel)
    (r : BatchResult) (l1 l2 : List BatchResult)
    (h : r.ch_id = none ∨ r.ch_id = some 0) :
    writebackOne source now db r = db
    ∧ writeback source now db (l1 ++ r :: l2) = writeback source now db (l1 ++ l2) := by
  refine ⟨writebackOne_falsy source now db r h, ?_⟩
  unfold writeback
  rw [List.foldl_append, List.foldl_cons,
    writebackOne_falsy source now _ r h, ← List.foldl_append]

theorem falsy_id_results_skipped_witness :
    writebackOne "manual" 3 [sampleChannel 0 "http://z"]
      ⟨"http://z", false, none, some "err", some 0⟩ = [sampleChannel 0 "http://z"] :=
  (falsy_id_results_skipped "manual" 3 [sampleChannel 0 "http://z"]
    ⟨"http://z", false, none, some "err", some 0⟩ [] [] (Or.inr rfl)).1

/-- C3: for a result whose channel identifier resolves, writeback rewrites
exactly the channel rows with that identifier, setting check-success flag,
check timestamp, captured artifact, check error (present exactly on
failure), check source tag, and enabled flag equal to the success flag;
a result whose identifier resolves to no stored channel is dropped and the
remaining results are still processed. -/
theorem writeback_semantics (source : String) (now : Nat) (db : List Channel)
    (r : BatchResult) (cid : Int) (ch : Channel) (rest : List BatchResult)
    (hid : r.ch_id = some cid) (hcid : cid ≠ 0) :
    (∀ j : Nat, (writebackOne source now db r)[j]? =
        (db[j]?).map fun c => if c.id = some cid then applyResult source now r c else c)
    ∧ (applyResult source now r ch).check_status = some r.status
    ∧ (applyResult source now r ch).check_date = some now
    ∧ (applyResult source now r ch).check_image = r.image
    ∧ (applyResult source now r ch).check_error = (if r.status then none else r.error)
    ∧ (applyResult source now r ch).check_source = some source
    ∧ (applyResult source now r ch).is_enabled = r.status
    ∧ ((∀ c ∈ db, c.id ≠ some cid) →
        writeback source now db (r :: rest) = writeback source now db rest) := by
  refine ⟨?_, rfl, rfl, rfl, rfl, rfl, rfl, ?_⟩
  · intro j
    unfold writebackOne
    rw [hid]
    simp [hcid]
  · intro hnm
    unfold writeback
    rw [List.foldl_cons, writebackOne_no_match source now db r cid hid hnm]

theorem writeback_semantics_witness :
    writeback "manual" 9 [sampleChannel 1 "http://a", sampleChannel 2 "http://b"]
      [⟨"http://missing", false, none, some "gone", some 99⟩]
      = [sampleChannel 1 "http://a", sampleChannel 2 "http://b"] := by
  have h := writeback_semantics "manual" 9
    [sampleChannel 1 "http://a", sampleChannel 2 "http://b"]
    ⟨"http://missing", false, none, some "gone", some 99⟩ 99
    (sampleChannel 1 "http://a") [] rfl (by decide)
  exact h.2.2.2.2.2.2.2 (by decide)

/-- C1 (code bug): `run_batch_check` collects its tasks with
`asyncio.gather` without `return_exceptions=True` (stream_checker.py line
185), so an exception that escapes one `_bounded_check` wrapper
propagates out of the gather: the writeback block never runs and the
sibling's already-computed result is discarded, instead of the exception
becoming a failure ProbeResult and writeback still happening.  Evaluated
here at a 2-channel batch whose second task raises. -/
theorem escaped_exception_aborts_writeback :
    run_batch_check [sampleChannel 1 "http://a", sampleChannel 2 "http://b"]
      [sampleChannel 1 "http://a", sampleChannel 2 "http://b"]
      [.ok ⟨"http://a", true, some "img", none⟩, .raised "TypeError"]
      "manual" 7
    = ([0, 50], Except.error "TypeError") := by
  have hp0 : progressOf 2 0 = 0 := progressOf_zero_index 2
  have hp1 : progressOf 2 1 = 50 := by
    unfold progressOf
    rw [show ((1:ℕ):ℚ) = (1:ℚ) from by norm_num, show ((2:ℕ):ℚ) = (2:ℚ) from by norm_num]
    have e1 : fl64 ((1:ℚ)/2) = 1/2 := by
      have h := fl64_dyadic (2 ^ 52) (-1) (by norm_num) (by norm_num) (by norm_num)
      rw [show (((2:ℤ) ^ 52 : ℤ) : ℚ) * (2:ℚ) ^ (-1 - 52 : ℤ) = 1/2 from by
        rw [show (-1 - 52 : ℤ) = -(53:ℕ) from by norm_num, two_zpow_neg_nat]
        push_cast
        norm_num] at h
      exact h
    have e2 : fl64 ((1:ℚ)/2 * 100) = 50 := by
      rw [show (1:ℚ)/2 * 100 = 50 from by norm_num]
      have h := fl64_dyadic (50 * 2 ^ 47) 5 (by norm_num) (by norm_num) (by norm_num)
      rw [show ((50 * 2 ^ 47 : ℤ) : ℚ) * (2:ℚ) ^ (5 - 52 : ℤ) = 50 from by
        rw [show (5 - 52 : ℤ) = -(47:ℕ) from by norm_num, two_zpow_neg_nat]
        push_cast
        norm_num] at h
      exact h
    rw [e1, e2, show (50:ℚ) = ((50:ℤ):ℚ) from by norm_num, Int.floor_intCast]
    rfl
  have hrep : batchProgressReports 2 = [0, 50] := by
    show (progStep 2 (progStep 2 ⟨-1, []⟩ 0) 1).reports = [0, 50]
    simp [progStep, hp0, hp1, emitCond]
  show run_batch_check _ _ _ _ _ = _
  unfold run_batch_check
  rw [show ([sampleChannel 1 "http://a", sampleChannel 2 "http://b"] : List Channel).length
    = 2 from rfl]
  rw [hrep]
  rfl

theorem find?_reverse_nodup (olds : List Channel) (old : Channel) (u : String)
    (hnd : (olds.map fun c => c.url).Nodup)
    (hmem : old ∈ olds) (hurl : old.url = u) :
    olds.reverse.find? (fun c => c.url = u) = some old := by
  have hmem2 : old ∈ olds.reverse := List.mem_reverse.mpr hmem
  have hsome : (olds.reverse.find? (fun c => decide (c.url = u))).isSome := by
    rw [List.find?_isSome]
    exact ⟨old, hmem2, by simp [hurl]⟩
  obtain ⟨b, hb⟩ := Option.isSome_iff_exists.mp hsome
  have hbu : b.url = u := by simpa using List.find?_some hb
  have hbm : b ∈ olds := List.mem_reverse.mp (List.mem_of_find?_eq_some hb)
  have hbo : b = old := List.inj_on_of_nodup_map hnd hbm hmem (by rw [hbu, hurl])
  rw [hb, hbo]

/-- C4: the reconciliation merge produces one row per fetched item; when
the fetched URL equals the URL of a prior channel (URLs of the prior set
being distinct), the row carries that channel's enabled flag,
check-success flag, check timestamp and check artifact while name, group,
logo and URL come from the fresh fetch; when the fetched URL matches no
prior channel, the row is enabled with all check fields unset. -/
theorem reconciliation_merge_semantics (olds : List Channel) (fetched : List FetchedItem)
    (item : FetchedItem) (old : Channel) (u : String)
    (hnd : (olds.map fun c => c.url).Nodup)
    (hmem : old ∈ olds) (hurl : old.url = u) (hitem : item.url = some u) :
    ((mergedRow olds item).is_enabled = old.is_enabled
      ∧ (mergedRow olds item).check_status = old.check_status
      ∧ (mergedRow olds item).check_date = old.check_date
      ∧ (mergedRow olds item).check_image = old.check_image
      ∧ (mergedRow olds item).name = item.name
      ∧ (mergedRow olds item).url = u
      ∧ (mergedRow olds item).group_title = item.group_title
      ∧ (mergedRow olds item).logo = item.logo)
    ∧ (∀ i2 : FetchedItem, (∀ c ∈ olds, some c.url ≠ i2.url) →
        (mergedRow olds i2).is_enabled = true
        ∧ (mergedRow olds i2).check_status = none
        ∧ (mergedRow olds i2).check_date = none
        ∧ (mergedRow olds i2).check_image = none
        ∧ (mergedRow olds i2).name = i2.name)
    ∧ (∀ j : Nat, (process_subscription_refresh olds fetched)[j]?
        = (fetched[j]?).map (mergedRow olds)) := by
  have hf := find?_reverse_nodup olds old u hnd hmem hurl
  refine ⟨?_, ?_, ?_⟩
  · have hst : channelStates olds (some u)
        = some ⟨old.is_enabled, old.check_status, old.check_date, old.check_image⟩ := by
      simp [channelStates, hf]
    refine ⟨?_, ?_, ?_, ?_, rfl, ?_, rfl, rfl⟩ <;> simp [mergedRow, hst, hitem]
  · intro i2 h2
    have hst : channelStates olds i2.url = none := by
      cases hi2 : i2.url with
      | none => simp [channelStates]
      | some u2 =>
        have hn : olds.reverse.find? (fun c => decide (c.url = u2)) = none := by
          rw [List.find?_eq_none]
          intro c hc
          have h3 := h2 c (List.mem_reverse.mp hc)
          rw [hi2] at h3
          simpa using h3
        simp [channelStates, hn]
    simp [mergedRow, hst]
  · intro j
    unfold process_subscription_refresh
    exact List.getElem?_map (mergedRow olds) fetched j

theorem reconciliation_merge_semantics_witness :
    (mergedRow [oldRowA] fetchedX).is_enabled = false
    ∧ (mergedRow [oldRowA] fetchedX).check_status = some true
    ∧ (mergedRow [oldRowA] fetchedX).name = "X"
    ∧ (mergedRow [oldRowA] fetchedY).is_enabled = true
    ∧ (mergedRow [oldRowA] fetchedY).check_status = none := by
  have h := reconciliation_merge_semantics [oldRowA] [fetchedX] fetchedX oldRowA "a"
    (by decide) (by decide) rfl rfl
  have h2 := h.2.1 fetchedY (by decide)
  exact ⟨h.1.1, h.1.2.1, h.1.2.2.2.2.1, h2.1, h2.2.1⟩

/-! ## Progress throttling lemmas -/

theorem batchProgressReports_eq (total : Nat) :
    batchProgressReports total = (progRun total total).reports := rfl

theorem rne_29_50 : rne ((261208778387488768:ℚ)/50) = 5224175567749775 := by
  have hfl : ⌊(261208778387488768:ℚ)/50⌋ = 5224175567749775 := by
    rw [Int.floor_eq_iff]
    constructor
    · norm_num
    · norm_num
  unfold rne
  rw [hfl]
  norm_num

theorem rne_58_below : rne ((522417556774977500:ℚ)/64) = 8162774324609023 := by
  have hfl : ⌊(522417556774977500:ℚ)/64⌋ = 8162774324609023 := by
    rw [Int.floor_eq_iff]
    constructor
    · norm_num
    · norm_num
  unfold rne
  rw [hfl]
  norm_num

/-- The float percent deviates from the exact rational floor: at
total = 50, i = 29 the exact floor of 29/50*100 is 58, but CPython
computes int((29/50)*100) = 57 because 29/50 rounds to a double slightly
below 0.58 and the product lands just below 58.  The model reproduces the
code's 57. -/
theorem progressOf_50_29 : progressOf 50 29 = 57 := by
  unfold progressOf
  rw [show ((29:ℕ):ℚ) = (29:ℚ) from by norm_num,
    show ((50:ℕ):ℚ) = (50:ℚ) from by norm_num]
  have e1 : fl64 ((29:ℚ)/50) = (5224175567749775:ℚ) * (2:ℚ) ^ (-53 : ℤ) := by
    have h1 : (2:ℚ) ^ (-1:ℤ) ≤ (29:ℚ)/50 := by
      rw [show (-1:ℤ) = -(1:ℕ) from by norm_num, two_zpow_neg_nat]
      norm_num
    have h2 : (29:ℚ)/50 < (2:ℚ) ^ (-1 + 1 : ℤ) := by
      rw [show (-1 + 1 : ℤ) = 0 from by norm_num, zpow_zero]
      norm_num
    rw [fl64_eq ((29:ℚ)/50) (-1) (by norm_num) h1 h2 (by norm_num)]
    rw [show (52:ℤ) - (-1) = ((53:ℕ):ℤ) from by norm_num, zpow_natCast,
      show (-1:ℤ) - 52 = (-53:ℤ) from by norm_num]
    rw [show (29:ℚ)/50 * (2:ℚ) ^ (53:ℕ) = 261208778387488768/50 from by norm_num]
    rw [rne_29_50]
    push_cast
    ring
  have e2 : fl64 ((5224175567749775:ℚ) * (2:ℚ) ^ (-53 : ℤ) * 100)
      = (8162774324609023:ℚ) * (2:ℚ) ^ (-47 : ℤ) := by
    have hv : (5224175567749775:ℚ) * (2:ℚ) ^ (-53 : ℤ) * 100
        = 522417556774977500/9007199254740992 := by
      rw [show (-53:ℤ) = -(53:ℕ) from by norm_num, two_zpow_neg_nat]
      norm_num
    rw [hv]
    have h1 : (2:ℚ) ^ (5:ℤ) ≤ (522417556774977500:ℚ)/9007199254740992 := by
      rw [show (5:ℤ) = ((5:ℕ):ℤ) from by norm_num, zpow_natCast]
      norm_num
    have h2 : (522417556774977500:ℚ)/9007199254740992 < (2:ℚ) ^ (5 + 1 : ℤ) := by
      rw [show (5 + 1:ℤ) = ((6:ℕ):ℤ) from by norm_num, zpow_natCast]
      norm_num
    rw [fl64_eq _ 5 (by norm_num) h1 h2 (by norm_num)]
    rw [show (52:ℤ) - 5 = ((47:ℕ):ℤ) from by norm_num, zpow_natCast,
      show (5:ℤ) - 52 = (-47:ℤ) from by norm_num]
    rw [show (522417556774977500:ℚ)/9007199254740992 * (2:ℚ) ^ (47:ℕ)
        = 522417556774977500/64 from by norm_num]
    rw [rne_58_below]
    push_cast
    ring
  rw [e1, e2]
  have hfl : ⌊(8162774324609023:ℚ) * (2:ℚ) ^ (-47 : ℤ)⌋ = 57 := by
    rw [show (-47:ℤ) = -(47:ℕ) from by norm_num, two_zpow_neg_nat]
    rw [Int.floor_eq_iff]
    constructor
    · norm_num
    · norm_num
  rw [hfl]
  rfl

theorem zeroCount_succ (total k : Nat) :
    zeroCount total (k + 1)
      = zeroCount total k + (if progressOf total k = 0 then 1 else 0) := by
  unfold zeroCount
  rw [List.range_succ, List.countP_append]
  by_cases h0 : progressOf total k = 0 <;> simp [h0]

/-- The inductive core of the progress claims: after `k` of the emission
decisions, the tracked `last_progress` is at least -1 and at most the
percent just processed, it agrees with the last entry of the emitted
report list, and the report list is non-decreasing and bounded by
`last_progress`.  Holds for every batch size with no side conditions
(it relies only on monotonicity of the float percent). -/
theorem progRun_invariant (total : Nat) :
    ∀ k,
      -1 ≤ (progRun total k).last
      ∧ (progRun total k).last ≤ prevBound total k
      ∧ lastEmitted (progRun total k).reports = (progRun total k).last
      ∧ (progRun total k).reports.Pairwise (· ≤ ·)
      ∧ (∀ x ∈ (progRun total k).reports, (x : Int) ≤ (progRun total k).last) := by
  intro k
  induction k with
  | zero =>
    refine ⟨by norm_num [progRun], by norm_num [progRun, prevBound],
      by simp [progRun, lastEmitted], by simp [progRun], by simp [progRun]⟩
  | succ k ih =>
    obtain ⟨h1, h2, h3, h4, h5⟩ := ih
    have hprev : (progRun total k).last ≤ (progressOf total k : Int) := by
      rcases k with - | j
      · have hb : prevBound total 0 = -1 := rfl
        rw [hb] at h2
        have := Int.natCast_nonneg (progressOf total 0)
        omega
      · have hm : progressOf total j ≤ progressOf total (j + 1) :=
          progressOf_mono total (Nat.le_succ j)
        have hb : prevBound total (j + 1) = (progressOf total j : Int) := rfl
        rw [hb] at h2
        have hm2 : (progressOf total j : Int) ≤ (progressOf total (j + 1) : Int) := by
          exact_mod_cast hm
        omega
    cases hc : emitCond (progressOf total k) (progRun total k).last with
    | false =>
      have hrun : progRun total (k + 1) = progRun total k := by
        show progStep total (progRun total k) k = progRun total k
        unfold progStep
        simp [hc]
      rw [hrun]
      refine ⟨h1, ?_, h3, h4, h5⟩
      have hb : prevBound total (k + 1) = (progressOf total k : Int) := rfl
      rw [hb]
      exact hprev
    | true =>
      have hrun : progRun total (k + 1)
          = ⟨(progressOf total k : Int),
             (progRun total k).reports ++ [progressOf total k]⟩ := by
        show progStep total (progRun total k) k = _
        unfold progStep
        simp [hc]
      have hxle : ∀ x ∈ (progRun total k).reports, x ≤ progressOf total k := by
        intro x hx
        have hxi : (x : Int) ≤ (progRun total k).last := h5 x hx
        have : (x : Int) ≤ (progressOf total k : Int) := le_trans hxi hprev
        exact_mod_cast this
      rw [hrun]
      refine ⟨?_, ?_, ?_, ?_, ?_⟩
      · show -1 ≤ (progressOf total k : Int)
        have := Int.natCast_nonneg (progressOf total k)
        omega
      · exact le_refl _
      · simp [lastEmitted, List.getLast?_concat]
      · rw [List.pairwise_append]
        refine ⟨h4, List.pairwise_singleton _ _, ?_⟩
        intro x hx y hy
        rw [List.mem_singleton] at hy
        subst hy
        exact hxle x hx
      · intro x hx
        rcases List.mem_append.mp hx with hx1 | hx2
        · exact le_trans (h5 x hx1) hprev
        · rw [List.mem_singleton] at hx2
          subst hx2
          exact le_refl _

/-- The counting invariant: for batch sizes up to 2^32 (where the float
percent of every index below `total` stays below 100), twice the number of
emitted reports is bounded by twice the number of percent-0 indices plus
`last_progress + 2`. -/
theorem progRun_count_invariant (total : Nat) (ht : 0 < total) (htb : total ≤ 2 ^ 32) :
    ∀ k, k ≤ total →
      2 * ((progRun total k).reports.length : Int)
        ≤ 2 * (zeroCount total k : Int) + (progRun total k).last + 2 := by
  intro k
  induction k with
  | zero =>
    intro _
    simp [progRun, zeroCount]
  | succ k ih =>
    intro hk1
    have h6 := ih (Nat.le_of_succ_le hk1)
    obtain ⟨h1, h2, h3, h4, h5⟩ := progRun_invariant total k
    have hk : k < total := hk1
    have hplt : progressOf total k < 100 := progressOf_lt_100 total k ht htb hk
    have hprev : (progRun total k).last ≤ (progressOf total k : Int) := by
      rcases k with - | j
      · have hb : prevBound total 0 = -1 := rfl
        rw [hb] at h2
        have := Int.natCast_nonneg (progressOf total 0)
        omega
      · have hm : progressOf total j ≤ progressOf total (j + 1) :=
          progressOf_mono total (Nat.le_succ j)
        have hb : prevBound total (j + 1) = (progressOf total j : Int) := rfl
        rw [hb] at h2
        have hm2 : (progressOf total j : Int) ≤ (progressOf total (j + 1) : Int) := by
          exact_mod_cast hm
        omega
    have hzc := zeroCount_succ total k
    cases hc : emitCond (progressOf total k) (progRun total k).last with
    | false =>
      have hrun : progRun total (k + 1) = progRun total k := by
        show progStep total (progRun total k) k = progRun total k
        unfold progStep
        simp [hc]
      have hpne : progressOf total k ≠ 0 := by
        intro h0
        simp [emitCond, h0] at hc
      have hz0 : zeroCount total (k + 1) = zeroCount total k := by
        rw [hzc, if_neg hpne, Nat.add_zero]
      rw [hrun, hz0]
      exact h6
    | true =>
      have hrun : progRun total (k + 1)
          = ⟨(progressOf total k : Int),
             (progRun total k).reports ++ [progressOf total k]⟩ := by
        show progStep total (progRun total k) k = _
        unfold progStep
        simp [hc]
      have hdisj : progressOf total k = 0
          ∨ 2 ≤ (progressOf total k : Int) - (progRun total k).last := by
        by_cases h0 : progressOf total k = 0
        · exact Or.inl h0
        · right
          have h100 : progressOf total k ≠ 100 := by omega
          have hc2 := hc
          unfold emitCond at hc2
          rw [show (progressOf total k == 0) = false by simp [h0],
            show (progressOf total k == 100) = false by simp [h100]] at hc2
          simpa using hc2
      rw [hrun]
      by_cases hp0 : progressOf total k = 0
      · have hz1 : zeroCount total (k + 1) = zeroCount total k + 1 := by
          rw [hzc, if_pos hp0]
        have hl0 : (progRun total k).last ≤ 0 := by
          rw [hp0] at hprev
          exact_mod_cast hprev
        show 2 * (((progRun total k).reports ++ [progressOf total k]).length : Int)
            ≤ 2 * (zeroCount total (k + 1) : Int) + (progressOf total k : Int) + 2
        rw [List.length_append, hz1, hp0]
        simp only [List.length_singleton]
        push_cast
        omega
      · have hz0 : zeroCount total (k + 1) = zeroCount total k := by
          rw [hzc, if_neg hp0, Nat.add_zero]
        rcases hdisj with h0 | hadv
        · exact absurd h0 hp0
        · show 2 * (((progRun total k).reports ++ [progressOf total k]).length : Int)
              ≤ 2 * (zeroCount total (k + 1) : Int) + (progressOf total k : Int) + 2
          rw [List.length_append, hz0]
          simp only [List.length_singleton]
          push_cast
          omega

/-- C7: the progress percentages one batch emits form a non-decreasing
sequence: no emitted percentage is smaller than an earlier one. -/
theorem progress_reports_nondecreasing (total : Nat) :
    (batchProgressReports total).Pairwise (· ≤ ·) :=
  (progRun_invariant total total).2.2.2.1

theorem countP_range_lt (m : Nat) : ∀ N : Nat,
    (List.range N).countP (fun i => decide (i < m)) = min N m := by
  intro N
  induction N with
  | zero => simp
  | succ N ih =>
    rw [List.range_succ, List.countP_append, ih]
    by_cases hN : N < m <;> simp [hN] <;> omega

theorem zeroCount_le (total : Nat) (ht : 0 < total) :
    zeroCount total total ≤ (total - 1) / 100 + 1 := by
  have hsub : ∀ i ∈ List.range total,
      (fun i => progressOf total i == 0) i = true →
      (fun i => decide (i < (total - 1) / 100 + 1)) i = true := by
    intro i _ h0
    simp only [beq_iff_eq] at h0
    simp only [decide_eq_true_eq]
    have hlt : i * 100 < total := by
      by_contra hge
      push_neg at hge
      exact progressOf_ne_zero total i ht hge h0
    have h1 : i * 100 ≤ total - 1 := by omega
    have h2 : i ≤ (total - 1) / 100 := (Nat.le_div_iff_mul_le (by norm_num)).mpr h1
    omega
  calc zeroCount total total
      ≤ (List.range total).countP (fun i => decide (i < (total - 1) / 100 + 1)) :=
        List.countP_mono_left hsub
    _ = min total ((total - 1) / 100 + 1) := countP_range_lt _ total
    _ ≤ (total - 1) / 100 + 1 := min_le_right _ _

/-- The batch of `total` channels emits at most (total-1)/100 + 51
progress reports: one per index with percent 0 (of which there are
(total-1)/100 + 1) and at most 50 further emissions, each advancing the
last emitted percent by at least 2 within 0..99. -/
theorem progress_reports_length_le (total : Nat) (ht : 0 < total)
    (htb : total ≤ 2 ^ 32) :
    (batchProgressReports total).length ≤ (total - 1) / 100 + 51 := by
  obtain ⟨h1, h2, h3, h4, h5⟩ := progRun_invariant total total
  have h6 := progRun_count_invariant total ht htb total le_rfl
  have hlast : (progRun total total).last ≤ 99 := by
    rcases total with - | j
    · exact absurd ht (by norm_num)
    · have hb : prevBound (j + 1) (j + 1) = (progressOf (j + 1) j : Int) := rfl
      rw [hb] at h2
      have hplt : progressOf (j + 1) j < 100 :=
        progressOf_lt_100 (j + 1) j ht htb (Nat.lt_succ_self j)
      have : (progressOf (j + 1) j : Int) ≤ 99 := by exact_mod_cast Nat.lt_succ_iff.mp hplt
      omega
  have hz := zeroCount_le total ht
  unfold batchProgressReports
  omega

theorem progRun_len_step (total k : Nat) :
    (progRun total k).reports.length ≤ (progRun total (k + 1)).reports.length := by
  show _ ≤ (progStep total (progRun total k) k).reports.length
  unfold progStep
  cases hc : emitCond (progressOf total k) (progRun total k).last <;> simp [hc]

theorem progRun_len_mono (total : Nat) {k1 k2 : Nat} (h : k1 ≤ k2) :
    (progRun total k1).reports.length ≤ (progRun total k2).reports.length := by
  induction h with
  | refl => exact le_refl _
  | step h ih => exact le_trans ih (progRun_len_step total _)

theorem progRun_zeros_length (total : Nat) :
    ∀ k, (∀ i, i < k → progressOf total i = 0) →
      (progRun total k).reports.length = k := by
  intro k
  induction k with
  | zero => intro _; simp [progRun]
  | succ k ih =>
    intro h
    have hk := h k (Nat.lt_succ_self k)
    have ihh := ih (fun i hi => h i (Nat.lt_trans hi (Nat.lt_succ_self k)))
    show (progStep total (progRun total k) k).reports.length = k + 1
    unfold progStep
    have hc : emitCond (progressOf total k) (progRun total k).last = true := by
      simp [emitCond, hk]
    simp [hc, ihh]

/-- C2 counterexample: the emitted report count is not bounded by ~52
independently of the batch size: percent 0 is re-emitted for every index
whose percent is 0, so a batch of 100000 channels already emits at least
53 reports during its first 53 indices. -/
theorem progress_report_count_unbounded :
    ¬ ∀ total : Nat, 0 < total → (batchProgressReports total).length ≤ 52 := by
  intro h
  have h1 := h 100000 (by norm_num)
  have h2 : (progRun 100000 53).reports.length = 53 := by
    apply progRun_zeros_length
    intro i hi
    apply progressOf_eq_zero 100000 i (by norm_num) (by norm_num)
    omega
  have h3 := progRun_len_mono 100000 (show 53 ≤ 100000 by norm_num)
  rw [batchProgressReports_eq] at h1
  omega

/-- C2 amended: a progress report is emitted before probe i exactly when
its float-computed percent int((i/total)*100) is 0, is 100, or is at
least 2 points above the last emitted percent of the batch; and for every
batch size up to 2^32 the batch emits at most (total-1)/100 + 51 reports
— a bound that grows with the batch size because percent 0 re-emits a
report for every index below total/100, rather than being at most ~52
independent of it. -/
theorem progress_emission_characterization (total i : Nat)
    (ht : 0 < total) (hi : i < total) (htb : total ≤ 2 ^ 32) :
    ((progRun total (i + 1)).reports
      = (progRun total i).reports ++
        (if emitCond (progressOf total i) (lastEmitted (progRun total i).reports)
          then [progressOf total i] else []))
    ∧ (batchProgressReports total).length ≤ (total - 1) / 100 + 51 := by
  constructor
  · have h3 := (progRun_invariant total i).2.2.1
    show (progStep total (progRun total i) i).reports = _
    rw [h3]
    unfold progStep
    cases hc : emitCond (progressOf total i) (progRun total i).last <;> simp [hc]
  · exact progress_reports_length_le total ht htb

theorem progress_emission_characterization_witness :
    ((progRun 5 3).reports
      = (progRun 5 2).reports ++
        (if emitCond (progressOf 5 2) (lastEmitted (progRun 5 2).reports)
          then [progressOf 5 2] else []))
    ∧ (batchProgressReports 5).length ≤ (5 - 1) / 100 + 51 :=
  progress_emission_characterization 5 2 (by decide) (by decide) (by norm_num)

/-! ## Semaphore lemmas -/

theorem countP_replicate_pending (n : Nat) :
    (List.replicate n Phase.pending).countP (fun p => p = Phase.running) = 0 := by
  induction n with
  | zero => simp
  | succ n ih => simp [List.replicate_succ, List.countP_cons, ih]

theorem countP_set_add (p : Phase → Bool) (b : Phase) :
    ∀ (l : List Phase) (i : Nat) (h : i < l.length),
      (l.set i b).countP p + (if p (l.get ⟨i, h⟩) then 1 else 0)
        = l.countP p + (if p b then 1 else 0) := by
  intro l
  induction l with
  | nil => intro i h; simp at h
  | cons hd tl ih =>
    intro i h
    cases i with
    | zero =>
      simp only [List.set, List.countP_cons, List.get]
      omega
    | succ j =>
      have hj : j < tl.length := Nat.lt_of_succ_lt_succ h
      have hrec := ih j hj
      simp only [List.set, List.countP_cons, List.get]
      omega

/-- The inductive invariant of the permit discipline: at every reachable
instant, the number of running probes plus the semaphore's free permits
equals the configured concurrency. -/
theorem running_permits_sum (k n : Nat) (s : BatchState) (h : Reachable k n s) :
    countRunning s + s.permits = k := by
  unfold Reachable at h
  induction h with
  | refl =>
    show countRunning (initState k n) + (initState k n).permits = k
    simp [initState, countRunning, countP_replicate_pending]
  | tail hst hstep ih =>
    cases hstep with
    | start i hi hp =>
      rename_i b
      have hc2 : countRunning ⟨b.permits, b.tasks.set i Phase.waiting⟩ = countRunning b := by
        unfold countRunning
        have hc := countP_set_add (fun p => p = Phase.running) Phase.waiting b.tasks i hi
        rw [hp] at hc
        simpa using hc
      show countRunning ⟨b.permits, b.tasks.set i Phase.waiting⟩ + b.permits = k
      rw [hc2]
      exact ih
    | acquire i hi hp hsem =>
      rename_i b
      have hc2 : countRunning ⟨b.permits - 1, b.tasks.set i Phase.running⟩
          = countRunning b + 1 := by
        unfold countRunning
        have hc := countP_set_add (fun p => p = Phase.running) Phase.running b.tasks i hi
        rw [hp] at hc
        simpa using hc
      show countRunning ⟨b.permits - 1, b.tasks.set i Phase.running⟩ + (b.permits - 1) = k
      rw [hc2]
      omega
    | finish i hi hp =>
      rename_i b
      have hc2 : countRunning ⟨b.permits + 1, b.tasks.set i Phase.done⟩ + 1
          = countRunning b := by
        unfold countRunning
        have hc := countP_set_add (fun p => p = Phase.running) Phase.done b.tasks i hi
        rw [hp] at hc
        simpa using hc
      show countRunning ⟨b.permits + 1, b.tasks.set i Phase.done⟩ + (b.permits + 1) = k
      omega

/-- C6: within one batch, at no reachable instant are more than the
configured number of probe invocations executing concurrently: a permit
is taken on entering the probe and returned when it finishes, so the
count of running probes never exceeds the semaphore size. -/
theorem semaphore_bounds_concurrency (k n : Nat) (_hk : 1 ≤ k) (s : BatchState)
    (h : Reachable k n s) : countRunning s ≤ k := by
  have hsum := running_permits_sum k n s h
  omega

theorem semaphore_bounds_concurrency_witness :
    countRunning ⟨1, [Phase.running, Phase.pending]⟩ ≤ 2 := by
  refine semaphore_bounds_concurrency 2 2 (by norm_num) _ ?_
  have step1 : BatchStep (initState 2 2) ⟨2, [Phase.waiting, Phase.pending]⟩ :=
    BatchStep.start (initState 2 2) 0 (by decide) (by decide)
  have step2 : BatchStep ⟨2, [Phase.waiting, Phase.pending]⟩
      ⟨1, [Phase.running, Phase.pending]⟩ :=
    BatchStep.acquire ⟨2, [Phase.waiting, Phase.pending]⟩ 0 (by decide) (by decide)
      (by norm_num)
  exact Relation.ReflTransGen.tail
    (Relation.ReflTransGen.tail Relation.ReflTransGen.refl step1) step2
